import Mathlib

/-!
Verification of the sentiment-tracking pipeline of `src/twitter.py`
(keyword filtering, polarity labelling, aggregation, ranking, trending
words, and the Run Analysis driver) against its specification.

Texts are modelled as lists of characters; polarity scores and the
sentiment threshold, floats in the program, are modelled as rationals
(every comparison the program makes on them is a strict or non-strict
order comparison, which floats decide the same way as the rationals
that denote them).
-/

/-- A text is a list of characters. -/
abbrev Text := List Char

/-- A raw record of the corpus `st.session_state.tweets_df`:
a creation timestamp and a text (the two columns built by
`generate_demo_tweets` / the Add Tweet handler). -/
structure Tweet where
  created_at : Int
  text : Text
deriving DecidableEq, Repr

/-- The three labels produced by `analyze` (line 92). -/
inductive Sentiment where
  | Positive
  | Negative
  | Neutral
deriving DecidableEq, Repr

/-- Line 92: `"Positive" if pol > sentiment_threshold else "Negative" if
pol < -sentiment_threshold else "Neutral"`. -/
def labelOf (pol threshold : ℚ) : Sentiment :=
  if pol > threshold then .Positive
  else if pol < -threshold then .Negative
  else .Neutral

/-- A row of the classified frame: the raw record plus the `Polarity` and
`Sentiment` columns added on line 95. -/
structure CTweet where
  created_at : Int
  text : Text
  polarity : ℚ
  sentiment : Sentiment
deriving DecidableEq, Repr

/-- Lines 89-93: classify one row. The polarity computation
(`TextBlob(...).sentiment.polarity`) is an external capability, passed in
as the function `classify`. -/
def analyze (classify : Text → ℚ) (threshold : ℚ) (t : Tweet) : CTweet :=
  let pol := classify t.text
  ⟨t.created_at, t.text, pol, labelOf pol threshold⟩

/-- Line 77, the Add Tweet handler: `if st.button("Add Tweet") and
custom_tweet:` appends a row via `pd.concat(..., ignore_index=True)`.
Python string truthiness makes the guard reject exactly the empty text;
any other text (whitespace-only included) is appended at the end. -/
def appendTweet (corpus : List Tweet) (txt : Text) (now : Int) : List Tweet :=
  if txt.isEmpty then corpus else corpus ++ [⟨now, txt⟩]

/-!
## Keyword filter

Line 85: `df[df['text'].str.contains(keyword, case=False)].head(tweet_count)`.
`Series.str.contains` defaults to `regex=True`, so the keyword is compiled
as a regular expression and matched with `re.search` under `re.IGNORECASE`.
The embedding covers the fragment of Python patterns made of ordinary
characters and the metacharacter `.` (which matches any character except a
newline); keywords containing other regex metacharacters are outside the
embedded fragment. Case folding is modelled by `Char.toLower`, which agrees
with Python's folding on ASCII text.
-/

/-- A token of the embedded pattern fragment: a literal character or the
regex metacharacter dot. -/
inductive RTok where
  | lit (c : Char)
  | dot
deriving DecidableEq, Repr

/-- Pattern compilation on the embedded fragment: `.` becomes the
any-character metacharacter, every other character a literal. -/
def parseKeyword (kw : Text) : List RTok :=
  kw.map (fun c => if c = '.' then RTok.dot else RTok.lit c)

/-- One pattern token against one character, under IGNORECASE:
a literal compares case-folded, dot matches anything but a newline. -/
def tokMatch : RTok → Char → Bool
  | .lit c, d => c.toLower == d.toLower
  | .dot, d => d != '\n'

/-- The pattern matches at the very start of the text. -/
def matchesHere : List RTok → Text → Bool
  | [], _ => true
  | _ :: _, [] => false
  | t :: ts, c :: cs => tokMatch t c && matchesHere ts cs

/-- `re.search`: the pattern matches at some position of the text. -/
def reSearch (p : List RTok) : Text → Bool
  | [] => matchesHere p []
  | c :: cs => matchesHere p (c :: cs) || reSearch p cs

/-- `s.str.contains(keyword, case=False)` applied to one text. -/
def strContainsCI (kw s : Text) : Bool :=
  reSearch (parseKeyword kw) s

/-- Line 85 as a whole: keep the rows whose text matches the keyword,
in corpus order, and truncate to the first `limit` rows (`head`). -/
def filterTweets (corpus : List Tweet) (kw : Text) (limit : Nat) : List Tweet :=
  (corpus.filter (fun t => strContainsCI kw t.text)).take limit

/-- Spec-side notion, from the spec's words: `kw` is a leading piece of `s`
(character-for-character equality). -/
def startsW : Text → Text → Bool
  | [], _ => true
  | _ :: _, [] => false
  | c :: cs, d :: ds => c == d && startsW cs ds

/-- Spec-side notion: `kw` occurs contiguously somewhere in `s`. -/
def hasSub (kw : Text) : Text → Bool
  | [] => startsW kw []
  | c :: cs => startsW kw (c :: cs) || hasSub kw cs

/-- Spec-side notion, from the spec's words ("case-insensitive substring
match against `text`"): the case-folded keyword occurs in the case-folded
text. -/
def specContainsCI (kw s : Text) : Bool :=
  hasSub (kw.map Char.toLower) (s.map Char.toLower)

/-- Spec-side filter: exactly the substring matches, in corpus order,
truncated to the first `limit`. -/
def specFilter (corpus : List Tweet) (kw : Text) (limit : Nat) : List Tweet :=
  (corpus.filter (fun t => specContainsCI kw t.text)).take limit

lemma parseKeyword_no_dot (kw : Text) (h : ∀ c ∈ kw, c ≠ '.') :
    parseKeyword kw = kw.map RTok.lit := by
  induction kw with
  | nil => rfl
  | cons c cs ih =>
    have hc : c ≠ '.' := h c (by simp)
    simp only [parseKeyword, List.map_cons, if_neg hc]
    have := ih (fun d hd => h d (by simp [hd]))
    simpa [parseKeyword] using this

lemma matchesHere_lit (kw : Text) :
    ∀ s : Text, matchesHere (kw.map RTok.lit) s
      = startsW (kw.map Char.toLower) (s.map Char.toLower) := by
  induction kw with
  | nil => intro s; rfl
  | cons c cs ih =>
    intro s
    cases s with
    | nil => rfl
    | cons d ds => simp [matchesHere, startsW, tokMatch, ih ds]

lemma reSearch_lit (kw : Text) :
    ∀ s : Text, reSearch (kw.map RTok.lit) s
      = hasSub (kw.map Char.toLower) (s.map Char.toLower) := by
  intro s
  induction s with
  | nil => simp [reSearch, hasSub, matchesHere_lit kw []]
  | cons d ds ih => simp [reSearch, hasSub, matchesHere_lit kw (d :: ds), ih]

lemma strContainsCI_eq_spec (kw s : Text) (h : ∀ c ∈ kw, c ≠ '.') :
    strContainsCI kw s = specContainsCI kw s := by
  unfold strContainsCI specContainsCI
  rw [parseKeyword_no_dot kw h, reSearch_lit]

/-- C1 counterexample: the keyword is compiled as a regular expression, so
the keyword "." selects the record "ab", whose text does not contain "."
as a (case-insensitive) substring. -/
theorem filter_keyword_is_regex_cex :
    filterTweets [⟨0, ['a', 'b']⟩] ['.'] 10 = [⟨0, ['a', 'b']⟩]
    ∧ specContainsCI ['.'] ['a', 'b'] = false
    ∧ filterTweets [⟨0, ['a', 'b']⟩] ['.'] 10 ≠ specFilter [⟨0, ['a', 'b']⟩] ['.'] 10 := by
  refine ⟨by decide, by decide, by decide⟩

/-- C1 as amended: for every keyword free of regex metacharacters (within
the embedded fragment: free of the character dot), the filter selects
exactly the records whose text contains the keyword as a case-insensitive
substring, preserves corpus insertion order (the result is a sublist of the
corpus), and truncates to the first `limit` matches. -/
theorem filterTweets_substring_of_plain_keyword (corpus : List Tweet)
    (kw : Text) (limit : Nat) (h : ∀ c ∈ kw, c ≠ '.') :
    filterTweets corpus kw limit
      = (corpus.filter (fun t => specContainsCI kw t.text)).take limit
    ∧ (filterTweets corpus kw limit).Sublist corpus
    ∧ (filterTweets corpus kw limit).length ≤ limit := by
  have hfil : corpus.filter (fun t => strContainsCI kw t.text)
      = corpus.filter (fun t => specContainsCI kw t.text) := by
    apply List.filter_congr
    intro t _
    rw [strContainsCI_eq_spec kw t.text h]
  refine ⟨by rw [filterTweets, hfil], ?_, ?_⟩
  · exact (List.take_sublist _ _).trans (List.filter_sublist _)
  · exact (List.length_take_le _ _)

/-- C1 witness: keyword "b" on a three-record corpus keeps the two matching
records (one matching only case-insensitively), in order. -/
theorem filterTweets_substring_witness :
    filterTweets [⟨0, ['a', 'B']⟩, ⟨1, ['c']⟩, ⟨2, ['b', 'd']⟩] ['b'] 10
      = (([⟨0, ['a', 'B']⟩, ⟨1, ['c']⟩, ⟨2, ['b', 'd']⟩] : List Tweet).filter
          (fun t => specContainsCI ['b'] t.text)).take 10 := by
  exact (filterTweets_substring_of_plain_keyword _ ['b'] 10 (by decide)).1

/-- C2: for polarity in [-1, 1] and threshold in [0, 1/2], the labeler
returns `Positive` iff polarity > threshold, `Negative` iff
polarity < -threshold, `Neutral` otherwise; both boundaries, threshold
0 included, resolve to `Neutral`. -/
theorem labelOf_spec (pol t : ℚ) (hpl : -1 ≤ pol) (hpu : pol ≤ 1)
    (htl : 0 ≤ t) (htu : t ≤ 1/2) :
    (labelOf pol t = .Positive ↔ t < pol)
    ∧ (labelOf pol t = .Negative ↔ pol < -t)
    ∧ (labelOf pol t = .Neutral ↔ (-t ≤ pol ∧ pol ≤ t))
    ∧ labelOf t t = .Neutral ∧ labelOf (-t) t = .Neutral := by
  unfold labelOf
  refine ⟨?_, ?_, ?_, ?_, ?_⟩
  · split_ifs with h1 h2 <;> simp_all <;> linarith
  · split_ifs with h1 h2 <;> simp_all <;> linarith
  · split_ifs with h1 h2 <;> simp_all <;> constructor <;> intro h <;> first
      | linarith [h.1, h.2]
      | exact ⟨by linarith, by linarith⟩
      | linarith
  · split_ifs with h1 h2 <;> first | rfl | linarith
  · split_ifs with h1 h2 <;> first | rfl | linarith

/-- C2 witness: the boundary instances of the spec at threshold 0.3. -/
theorem labelOf_spec_witness :
    labelOf (31/100) (3/10) = .Positive ∧ labelOf (3/10) (3/10) = .Neutral
    ∧ labelOf (-(3/10)) (3/10) = .Neutral := by
  have h := labelOf_spec (31/100) (3/10) (by norm_num) (by norm_num)
    (by norm_num) (by norm_num)
  have h2 := labelOf_spec (3/10) (3/10) (by norm_num) (by norm_num)
    (by norm_num) (by norm_num)
  exact ⟨h.1.mpr (by norm_num), h2.2.2.2.1, h2.2.2.2.2⟩

/-!
## The Run Analysis driver

Lines 83-98: on a run, the corpus is filtered by the keyword and truncated;
an empty result shows the error "No tweets found for this keyword!" and
leaves the stored analysis untouched; otherwise every kept row is
classified, the frame is sorted by `Time` (`pd.to_datetime(created_at)`,
the identity on the model's timestamps), and the result is stored in
`st.session_state.analysis_df`.

`sort_values('Time')` is embedded as an insertion sort by `created_at`:
every property proved about the sorted frame (sortedness by `created_at`,
and the frame claims of the driver) is insensitive to which of the
time-ordered permutations the library's sort kind produces. The tie-order
sensitivity of the default sort kind matters only to the ranker and is
modelled exactly there (see `npArgsort` below).
-/

/-- Insert one classified row into a list kept ascending by `created_at`. -/
def insertByTime (x : CTweet) : List CTweet → List CTweet
  | [] => [x]
  | y :: ys =>
    if x.created_at ≤ y.created_at then x :: y :: ys else y :: insertByTime x ys

/-- Line 97: `df.sort_values('Time')`, as a sort ascending by `created_at`. -/
def sortByTime (df : List CTweet) : List CTweet :=
  df.foldr insertByTime []

/-- The sidebar inputs a run reads (lines 67-69). -/
structure Config where
  keyword : Text
  tweet_count : Nat
  sentiment_threshold : ℚ

/-- The ambient session state (lines 39-42): the corpus and the stored
analysis frame. -/
structure SessionState where
  tweets_df : List Tweet
  analysis_df : List CTweet
deriving DecidableEq, Repr

/-- What one press of Run Analysis reports: the "No tweets found" error,
or the freshly computed classified frame. -/
inductive RunResult where
  | NoMatch
  | Ok (r : List CTweet)
deriving DecidableEq, Repr

/-- Lines 83-98, the Run Analysis block: the new session state and what the
run reported. `analysis_df` is assigned only on the success path. -/
def runAnalysis (classify : Text → ℚ) (cfg : Config) (s : SessionState) :
    SessionState × RunResult :=
  let df := filterTweets s.tweets_df cfg.keyword cfg.tweet_count
  if df.isEmpty then (s, .NoMatch)
  else
    let r := sortByTime (df.map (analyze classify cfg.sentiment_threshold))
    ({ s with analysis_df := r }, .Ok r)

/-- Lines 103-104: the main content renders the stored analysis frame only
when it is non-empty. -/
def displayed (s : SessionState) : Option (List CTweet) :=
  if s.analysis_df.isEmpty then none else some s.analysis_df

/-- C6 counterexample: the text " " is whitespace-only and non-empty, yet
the Add Tweet handler appends it (Python truthiness rejects only the empty
string), so the corpus does not stay unchanged. -/
theorem append_whitespace_accepted_cex :
    ([' '] : Text) ≠ [] ∧ (∀ c ∈ ([' '] : Text), c = ' ')
    ∧ appendTweet [] [' '] 7 = [⟨7, [' ']⟩]
    ∧ appendTweet [] [' '] 7 ≠ [] := by
  refine ⟨by decide, by decide, by decide, by decide⟩

/-- C6 as amended: the Add Tweet handler rejects exactly the empty text,
leaving the corpus unchanged; every non-empty text — whitespace-only text
included — is appended as a record at the next sequence position. -/
theorem appendTweet_amended (corpus : List Tweet) (txt : Text) (now : Int) :
    (txt = [] → appendTweet corpus txt now = corpus)
    ∧ (txt ≠ [] →
        appendTweet corpus txt now = corpus ++ [⟨now, txt⟩]
        ∧ (appendTweet corpus txt now).length = corpus.length + 1
        ∧ (appendTweet corpus txt now).getD corpus.length ⟨0, []⟩ = ⟨now, txt⟩) := by
  constructor
  · intro h
    simp [appendTweet, h]
  · intro h
    have he : txt.isEmpty = false := by
      cases txt with
      | nil => exact absurd rfl h
      | cons c cs => rfl
    refine ⟨by simp [appendTweet, he], by simp [appendTweet, he], ?_⟩
    simp [appendTweet, he, List.getD_append_right, le_refl]

/-- C7: when no record of the corpus matches the keyword, the filter
returns the empty sequence (it never errors: it is a total function), and
the driver reports the no-match error instead of computing a summary. -/
theorem run_noMatch_spec (classify : Text → ℚ) (cfg : Config)
    (s : SessionState)
    (h : ∀ t ∈ s.tweets_df, strContainsCI cfg.keyword t.text = false) :
    filterTweets s.tweets_df cfg.keyword cfg.tweet_count = []
    ∧ (runAnalysis classify cfg s).2 = .NoMatch := by
  have hf : filterTweets s.tweets_df cfg.keyword cfg.tweet_count = [] := by
    unfold filterTweets
    have : s.tweets_df.filter (fun t => strContainsCI cfg.keyword t.text) = [] := by
      rw [List.filter_eq_nil]
      intro t ht
      simp [h t ht]
    rw [this, List.take_nil]
  refine ⟨hf, ?_⟩
  unfold runAnalysis
  simp [hf]

/-- C7 witness: the keyword "zzz" matches nothing in a one-record corpus;
the filter is empty and the run reports no match. -/
theorem run_noMatch_witness :
    filterTweets [⟨0, ['a', 'b']⟩] ['z', 'z', 'z'] 10 = []
    ∧ (runAnalysis (fun _ => 0) ⟨['z', 'z', 'z'], 10, 1/10⟩
        ⟨[⟨0, ['a', 'b']⟩], []⟩).2 = .NoMatch := by
  exact run_noMatch_spec (fun _ => 0) ⟨['z', 'z', 'z'], 10, 1/10⟩
    ⟨[⟨0, ['a', 'b']⟩], []⟩ (by decide)

/-- C8: a run never mutates the corpus: the stored records and their order
are the same after every run, whatever the classifier, threshold, keyword
and limit (classification builds a derived frame). -/
theorem run_preserves_corpus (classify : Text → ℚ) (cfg : Config)
    (s : SessionState) :
    (runAnalysis classify cfg s).1.tweets_df = s.tweets_df := by
  unfold runAnalysis
  dsimp only
  split <;> rfl

lemma mem_insertByTime (a x : CTweet) (l : List CTweet) :
    a ∈ insertByTime x l ↔ a = x ∨ a ∈ l := by
  induction l with
  | nil => simp [insertByTime]
  | cons y ys ih =>
    unfold insertByTime
    split
    · simp [or_comm, or_assoc, or_left_comm]
    · simp [ih]
      tauto

lemma pairwise_insertByTime (x : CTweet) (l : List CTweet)
    (h : l.Pairwise (fun a b => a.created_at ≤ b.created_at)) :
    (insertByTime x l).Pairwise (fun a b => a.created_at ≤ b.created_at) := by
  induction l with
  | nil => simp [insertByTime]
  | cons y ys ih =>
    unfold insertByTime
    rw [List.pairwise_cons] at h
    split
    · refine List.pairwise_cons.mpr ⟨?_, List.pairwise_cons.mpr h⟩
      intro b hb
      rcases List.mem_cons.mp hb with hby | hbys
      · subst hby; omega
      · have := h.1 b hbys; omega
    · refine List.pairwise_cons.mpr ⟨?_, ih h.2⟩
      intro b hb
      rcases (mem_insertByTime b x ys).mp hb with hbx | hbys
      · subst hbx; omega
      · exact h.1 b hbys

lemma sortByTime_sorted (df : List CTweet) :
    (sortByTime df).Pairwise (fun a b => a.created_at ≤ b.created_at) := by
  unfold sortByTime
  induction df with
  | nil => simp
  | cons x xs ih => exact pairwise_insertByTime x _ ih

/-- C9: on every successful run the stored (and reported) analysis frame is
sorted by `created_at` in ascending order. -/
theorem run_result_time_sorted (classify : Text → ℚ) (cfg : Config)
    (s : SessionState) (r : List CTweet)
    (h : (runAnalysis classify cfg s).2 = .Ok r) :
    (runAnalysis classify cfg s).1.analysis_df = r
    ∧ r.Pairwise (fun a b => a.created_at ≤ b.created_at) := by
  unfold runAnalysis at h ⊢
  dsimp only at h ⊢
  split at h
  · cases h
  · rename_i hne
    rw [if_neg hne]
    cases h
    exact ⟨rfl, sortByTime_sorted _⟩

/-- C9 witness: a successful run on a two-record corpus whose records
arrive in reverse time order yields a time-sorted frame. -/
theorem run_result_time_sorted_witness :
    (runAnalysis (fun _ => 0) ⟨['a'], 10, 0⟩
        ⟨[⟨5, ['a']⟩, ⟨2, ['a']⟩], []⟩).1.analysis_df
      = sortByTime ([⟨5, ['a']⟩, ⟨2, ['a']⟩].map (analyze (fun _ => 0) 0))
    ∧ (sortByTime ([⟨5, ['a']⟩, ⟨2, ['a']⟩].map
        (analyze (fun _ => 0) 0))).Pairwise
        (fun a b => a.created_at ≤ b.created_at) := by
  exact run_result_time_sorted (fun _ => 0) ⟨['a'], 10, 0⟩
    ⟨[⟨5, ['a']⟩, ⟨2, ['a']⟩], []⟩ _ (by decide)

/-- C10: a run that fails with the no-match error leaves the whole session
state — the previously stored analysis frame included — unchanged, and what
the page presents stays what it presented before. -/
theorem failed_run_keeps_prior_result (classify : Text → ℚ) (cfg : Config)
    (s : SessionState)
    (h : filterTweets s.tweets_df cfg.keyword cfg.tweet_count = []) :
    (runAnalysis classify cfg s).1 = s
    ∧ (runAnalysis classify cfg s).1.analysis_df = s.analysis_df
    ∧ displayed (runAnalysis classify cfg s).1 = displayed s := by
  have hrun : (runAnalysis classify cfg s).1 = s := by
    unfold runAnalysis
    simp [h]
  exact ⟨hrun, by rw [hrun], by rw [hrun]⟩

/-- C10 witness: with a stored one-row analysis frame, a run whose keyword
matches nothing keeps the state and the presented frame intact. -/
theorem failed_run_keeps_prior_result_witness :
    (runAnalysis (fun _ => 0) ⟨['z'], 10, 1/10⟩
        ⟨[⟨0, ['a']⟩], [⟨0, ['a'], 1/2, .Positive⟩]⟩).1
      = ⟨[⟨0, ['a']⟩], [⟨0, ['a'], 1/2, .Positive⟩]⟩
    ∧ (runAnalysis (fun _ => 0) ⟨['z'], 10, 1/10⟩
        ⟨[⟨0, ['a']⟩], [⟨0, ['a'], 1/2, .Positive⟩]⟩).1.analysis_df
      = [⟨0, ['a'], 1/2, .Positive⟩]
    ∧ displayed (runAnalysis (fun _ => 0) ⟨['z'], 10, 1/10⟩
        ⟨[⟨0, ['a']⟩], [⟨0, ['a'], 1/2, .Positive⟩]⟩).1
      = displayed ⟨[⟨0, ['a']⟩], [⟨0, ['a'], 1/2, .Positive⟩]⟩ := by
  exact failed_run_keeps_prior_result (fun _ => 0) ⟨['z'], 10, 1/10⟩
    ⟨[⟨0, ['a']⟩], [⟨0, ['a'], 1/2, .Positive⟩]⟩ (by decide)

/-!
## Aggregation

Lines 105-107 over the stored analysis frame: `total = len(df)`,
`avg_pol = df['Polarity'].mean()` (the arithmetic mean, sum over count),
`counts = df['Sentiment'].value_counts()` read back per label through
`counts.get(label, 0)`.
-/

/-- Line 105: `total = len(df)`. -/
def total (df : List CTweet) : Nat := df.length

/-- Line 106: `avg_pol = df['Polarity'].mean()`, the sum of the polarities
over their number. -/
def avgPol (df : List CTweet) : ℚ :=
  (df.map (fun r => r.polarity)).sum / (df.length : ℚ)

/-- Line 107 with lines 113-114, 129: `df['Sentiment'].value_counts()`
read at one label (`counts.get(label, 0)`). -/
def countSentiment (df : List CTweet) (s : Sentiment) : Nat :=
  df.countP (fun r => decide (r.sentiment = s))

/-- A deterministic stand-in for the external polarity capability, fixing
the polarities 0.2, -0.4 and 0.0 of the spec's aggregation example. -/
def stubClassify : Text → ℚ
  | ['a'] => 1/5
  | ['b'] => -2/5
  | _ => 0

/-- The three-record corpus of the spec's aggregation example. -/
def aggTweets : List Tweet := [⟨0, ['a']⟩, ⟨1, ['b']⟩, ⟨2, ['c']⟩]

/-- The spec's aggregation example classified at threshold 0.1. -/
def aggExample : List CTweet := aggTweets.map (analyze stubClassify (1/10))

lemma length_eq_sum_countSentiment (df : List CTweet) :
    total df = countSentiment df .Positive + countSentiment df .Negative
      + countSentiment df .Neutral := by
  induction df with
  | nil => rfl
  | cons r rs ih =>
    simp only [total, List.length_cons, countSentiment, List.countP_cons] at ih ⊢
    cases r.sentiment <;> simp <;> omega

lemma aggExample_eq :
    aggExample = [⟨0, ['a'], 1/5, .Positive⟩, ⟨1, ['b'], -2/5, .Negative⟩,
      ⟨2, ['c'], 0, .Neutral⟩] := by
  have h1 : labelOf (1/5 : ℚ) (1/10) = .Positive := by
    unfold labelOf; rw [if_pos (by norm_num)]
  have h2 : labelOf (-2/5 : ℚ) (1/10) = .Negative := by
    unfold labelOf; rw [if_neg (by norm_num), if_pos (by norm_num)]
  have h3 : labelOf (0 : ℚ) (1/10) = .Neutral := by
    unfold labelOf; rw [if_neg (by norm_num), if_neg (by norm_num)]
  have ha : stubClassify ['a'] = 1/5 := rfl
  have hb : stubClassify ['b'] = -2/5 := rfl
  have hc : stubClassify ['c'] = 0 := rfl
  simp only [aggExample, aggTweets, List.map_cons, List.map_nil, analyze,
    ha, hb, hc, h1, h2, h3]

/-- C5: on every non-empty classified frame the aggregation reports the
record count (and every record carries exactly one label, so the per-label
counts sum to the total) and the arithmetic mean of the polarities; on the
spec's example — polarities 0.2, -0.4, 0.0 at threshold 0.1 — the counts
are one per label and the mean is -1/15 ≈ -0.0667. -/
theorem aggregate_spec (df : List CTweet) (h : df ≠ []) :
    total df = countSentiment df .Positive + countSentiment df .Negative
      + countSentiment df .Neutral
    ∧ (total df : ℚ) * avgPol df = (df.map (fun r => r.polarity)).sum
    ∧ total aggExample = 3
    ∧ countSentiment aggExample .Positive = 1
    ∧ countSentiment aggExample .Negative = 1
    ∧ countSentiment aggExample .Neutral = 1
    ∧ avgPol aggExample = -1/15
    ∧ |avgPol aggExample - (-667/10000)| < 1/10000 := by
  have h0 : df.length ≠ 0 := by
    intro hl
    exact h (List.eq_nil_of_length_eq_zero hl)
  have hlen : (df.length : ℚ) ≠ 0 := by
    exact_mod_cast h0
  have hmean : (total df : ℚ) * avgPol df = (df.map (fun r => r.polarity)).sum := by
    unfold total avgPol
    field_simp
  have hagg : avgPol aggExample = -1/15 := by
    rw [aggExample_eq]
    unfold avgPol
    norm_num
  refine ⟨length_eq_sum_countSentiment df, hmean, ?_, ?_, ?_, ?_, hagg, ?_⟩
  · rw [aggExample_eq]; rfl
  · rw [aggExample_eq]; rfl
  · rw [aggExample_eq]; rfl
  · rw [aggExample_eq]; rfl
  · rw [hagg]
    have habs : |(-1/15 : ℚ) - (-667/10000)| = 1/30000 := by
      rw [show (-1/15 : ℚ) - (-667/10000) = 1/30000 by norm_num]
      exact abs_of_nonneg (by norm_num)
    rw [habs]
    norm_num

/-- C5 witness: the label partition of the total, at the spec's example. -/
theorem aggregate_spec_witness :
    total aggExample = countSentiment aggExample .Positive
      + countSentiment aggExample .Negative + countSentiment aggExample .Neutral :=
  (aggregate_spec aggExample (by rw [aggExample_eq]; simp)).1

/-!
## Trending words

Lines 144-147: `words = [w for t in df['text'] for w in t.split() if not
w.startswith("http")]` and `Counter(words).most_common(10)`.

`str.split()` with no argument splits on runs of whitespace and drops empty
pieces. `Counter` is a dict keeping insertion order, so its items stand in
order of first appearance; `most_common(n)` is `heapq.nlargest(n, items,
key=count)`, which sorts descending by count and breaks ties by the items'
order (it decorates each item with its position), i.e. a stable descending
sort by count, truncated to `n`. Tokens keep their case; `most_common` is
embedded as a stable insertion sort by count, descending, then `take`.
-/

/-- Python's notion of whitespace for `str.split()` (ASCII range). -/
def isPySpace (c : Char) : Bool :=
  c == ' ' || c == '\t' || c == '\n' || c == '\r' || c == '\x0b' || c == '\x0c'

/-- Helper of `pySplit`: `cur` holds the characters of the word being read,
most recent first. -/
def pySplitAux : Text → Text → List Text
  | [], cur => if cur.isEmpty then [] else [cur.reverse]
  | c :: cs, cur =>
    if isPySpace c then
      if cur.isEmpty then pySplitAux cs [] else cur.reverse :: pySplitAux cs []
    else pySplitAux cs (c :: cur)

/-- `t.split()`: the maximal whitespace-free pieces of `t`, in order. -/
def pySplit (s : Text) : List Text := pySplitAux s []

/-- The URL scheme marker of line 145. -/
def httpMarker : Text := ['h', 't', 't', 'p']

/-- Line 145: every token of every text, in record order then position
order, dropping the tokens that start with "http". -/
def wordsOf (texts : List Text) : List Text :=
  texts.flatMap (fun t => (pySplit t).filter (fun w => !httpMarker.isPrefixOf w))

/-- One `Counter` update: increment the entry of `w`, keeping the entries
in insertion order; a new key goes to the back with count 1. -/
def bump : List (Text × Nat) → Text → List (Text × Nat)
  | [], w => [(w, 1)]
  | (v, c) :: rest, w =>
    if v = w then (v, c + 1) :: rest else (v, c) :: bump rest w

/-- `Counter(words).items()`: counts keyed in order of first appearance. -/
def counterItems (ws : List Text) : List (Text × Nat) :=
  ws.foldl bump []

/-- Insert into a list sorted descending by `key`, before the first
strictly smaller element: an earlier element wins every tie. -/
def insertDescBy {α κ : Type} [LinearOrder κ] (key : α → κ) (x : α) :
    List α → List α
  | [] => [x]
  | y :: ys => if key x < key y then y :: insertDescBy key x ys else x :: y :: ys

/-- Stable insertion sort, descending by `key`. -/
def sortDescBy {α κ : Type} [LinearOrder κ] (key : α → κ) (l : List α) :
    List α :=
  l.foldr (insertDescBy key) []

/-- `Counter(ws).most_common(n)`: the count items, stably sorted descending
by count, truncated to `n`. -/
def mostCommon (n : Nat) (ws : List Text) : List (Text × Nat) :=
  (sortDescBy Prod.snd (counterItems ws)).take n

/-- Lines 145-146 as a whole, over the texts of the classified subset. -/
def trendingWords (texts : List Text) : List (Text × Nat) :=
  mostCommon 10 (wordsOf texts)

/-- Spec-side notion, from the spec's words: the tokens in "order of first
appearance across the subset". -/
def dedupKeepFirst (ws : List Text) : List Text :=
  ws.foldl (fun ks w => if w ∈ ks then ks else ks ++ [w]) []

/-- The count an item list associates to a key (the first entry wins;
entry keys are kept distinct by `bump`). -/
def cnt : List (Text × Nat) → Text → Nat
  | [], _ => 0
  | (u, c) :: rest, v => if v = u then c else cnt rest v

lemma cnt_bump (acc : List (Text × Nat)) (w v : Text) :
    cnt (bump acc w) v = if v = w then cnt acc w + 1 else cnt acc v := by
  induction acc with
  | nil =>
    by_cases hvw : v = w <;> simp [bump, cnt, hvw]
  | cons p rest ih =>
    obtain ⟨u, c⟩ := p
    by_cases huw : u = w
    · subst huw
      by_cases hvu : v = u <;> simp [bump, cnt, hvu]
    · by_cases hvu : v = u
      · subst hvu
        have hvw : v ≠ w := huw
        simp [bump, huw, cnt, hvw]
      · have hwu : ¬w = u := fun he => huw he.symm
        simp [bump, huw, cnt, hvu, ih]
        by_cases hvw : v = w <;> simp [hvw, hwu]

lemma keys_bump (acc : List (Text × Nat)) (w : Text) :
    (bump acc w).map Prod.fst
      = if w ∈ acc.map Prod.fst then acc.map Prod.fst
        else acc.map Prod.fst ++ [w] := by
  induction acc with
  | nil => simp [bump]
  | cons p rest ih =>
    obtain ⟨u, c⟩ := p
    by_cases huw : u = w
    · subst huw
      simp [bump]
    · simp only [bump, if_neg huw, List.map_cons, List.mem_cons]
      have hwu : ¬w = u := fun h => huw h.symm
      by_cases hw : w ∈ rest.map Prod.fst
      · simp [hw, hwu, ih]
      · simp [hw, hwu, ih]

lemma mem_iff_cnt (acc : List (Text × Nat)) (hnd : (acc.map Prod.fst).Nodup)
    (p : Text × Nat) :
    p ∈ acc ↔ p.1 ∈ acc.map Prod.fst ∧ p.2 = cnt acc p.1 := by
  induction acc with
  | nil => simp
  | cons q rest ih =>
    obtain ⟨u, c⟩ := q
    simp only [List.map_cons, List.nodup_cons] at hnd
    constructor
    · intro hp
      rcases List.mem_cons.mp hp with h | h
      · rw [h]
        simp [cnt]
      · have hmem := (ih hnd.2 |>.mp h)
        have hne : p.1 ≠ u := by
          intro he
          exact hnd.1 (he ▸ hmem.1)
        simp [List.mem_cons, hmem.1, hmem.2, cnt, hne]
    · intro hp
      obtain ⟨hmem, hcnt⟩ := hp
      rcases List.mem_cons.mp hmem with h | h
      · refine List.mem_cons.mpr (Or.inl ?_)
        rw [cnt, if_pos h] at hcnt
        obtain ⟨p1, p2⟩ := p
        simp only at hcnt h
        rw [Prod.mk.injEq]
        exact ⟨h, hcnt⟩
      · refine List.mem_cons.mpr (Or.inr ?_)
        have hne : p.1 ≠ u := by
          intro he
          exact hnd.1 (he ▸ h)
        rw [cnt, if_neg hne] at hcnt
        exact (ih hnd.2).mpr ⟨h, hcnt⟩

lemma counter_foldl (ws : List Text) :
    ∀ acc : List (Text × Nat),
      ((ws.foldl bump acc).map Prod.fst
          = ws.foldl (fun ks w => if w ∈ ks then ks else ks ++ [w])
              (acc.map Prod.fst))
      ∧ (∀ v, cnt (ws.foldl bump acc) v = cnt acc v + ws.count v)
      ∧ ((acc.map Prod.fst).Nodup → ((ws.foldl bump acc).map Prod.fst).Nodup) := by
  induction ws with
  | nil =>
    intro acc
    simp
  | cons w ws ih =>
    intro acc
    simp only [List.foldl_cons]
    obtain ⟨ihk, ihc, ihn⟩ := ih (bump acc w)
    refine ⟨?_, ?_, ?_⟩
    · rw [ihk, keys_bump]
    · intro v
      rw [ihc v, cnt_bump, List.count_cons]
      by_cases hvw : v = w
      · subst hvw
        simp
        omega
      · have : ¬(w == v) = true := by
          simpa using fun h => hvw h.symm
        simp [hvw, this]
    · intro hnd
      apply ihn
      rw [keys_bump]
      by_cases hw : w ∈ acc.map Prod.fst
      · simpa [hw] using hnd
      · simp only [hw, if_false]
        rw [List.nodup_append]
        exact ⟨hnd, List.nodup_singleton w, by simpa using hw⟩

lemma mem_insertDescBy {α κ : Type} [LinearOrder κ] (key : α → κ) (a x : α)
    (l : List α) : a ∈ insertDescBy key x l ↔ a = x ∨ a ∈ l := by
  induction l with
  | nil => simp [insertDescBy]
  | cons y ys ih =>
    unfold insertDescBy
    split
    · simp only [List.mem_cons, ih]
      tauto
    · simp only [List.mem_cons]

lemma perm_insertDescBy {α κ : Type} [LinearOrder κ] (key : α → κ) (x : α)
    (l : List α) : (insertDescBy key x l).Perm (x :: l) := by
  induction l with
  | nil => exact List.Perm.refl _
  | cons y ys ih =>
    unfold insertDescBy
    split
    · exact (ih.cons y).trans (List.Perm.swap x y ys)
    · exact List.Perm.refl _

lemma sortDescBy_perm {α κ : Type} [LinearOrder κ] (key : α → κ)
    (l : List α) : (sortDescBy key l).Perm l := by
  induction l with
  | nil => exact List.Perm.refl _
  | cons x xs ih =>
    show (insertDescBy key x (sortDescBy key xs)).Perm (x :: xs)
    exact (perm_insertDescBy key x _).trans (ih.cons x)

lemma pairwise_insertDescBy {α κ : Type} [LinearOrder κ] (key : α → κ)
    (x : α) (l : List α) (h : l.Pairwise (fun a b => key b ≤ key a)) :
    (insertDescBy key x l).Pairwise (fun a b => key b ≤ key a) := by
  induction l with
  | nil => simp [insertDescBy]
  | cons y ys ih =>
    rw [List.pairwise_cons] at h
    unfold insertDescBy
    split
    · rename_i hc
      refine List.pairwise_cons.mpr ⟨?_, ih h.2⟩
      intro b hb
      rcases (mem_insertDescBy key b x ys).mp hb with hbx | hbys
      · rw [hbx]; exact le_of_lt hc
      · exact h.1 b hbys
    · rename_i hc
      push_neg at hc
      refine List.pairwise_cons.mpr ⟨?_, List.pairwise_cons.mpr h⟩
      intro b hb
      rcases List.mem_cons.mp hb with hby | hbys
      · rw [hby]; exact hc
      · exact le_trans (h.1 b hbys) hc

lemma sortDescBy_sorted {α κ : Type} [LinearOrder κ] (key : α → κ)
    (l : List α) :
    (sortDescBy key l).Pairwise (fun a b => key b ≤ key a) := by
  induction l with
  | nil => simp [sortDescBy]
  | cons x xs ih => exact pairwise_insertDescBy key x _ ih

lemma filter_insertDescBy {α κ : Type} [LinearOrder κ] (key : α → κ)
    (x : α) (l : List α) (c : κ) :
    (insertDescBy key x l).filter (fun a => decide (key a = c))
      = if key x = c then x :: l.filter (fun a => decide (key a = c))
        else l.filter (fun a => decide (key a = c)) := by
  induction l with
  | nil => by_cases h : key x = c <;> simp [insertDescBy, h]
  | cons y ys ih =>
    unfold insertDescBy
    split
    · rename_i hlt
      by_cases hx : key x = c
      · have hy : ¬key y = c := by
          intro he
          rw [hx] at hlt
          rw [he] at hlt
          exact lt_irrefl c hlt
        simp [List.filter_cons, hy, ih, hx]
      · by_cases hy : key y = c <;> simp [List.filter_cons, hy, ih, hx]
    · by_cases hx : key x = c <;> by_cases hy : key y = c <;>
        simp [List.filter_cons, hx, hy]

lemma sortDescBy_filter {α κ : Type} [LinearOrder κ] (key : α → κ)
    (l : List α) (c : κ) :
    (sortDescBy key l).filter (fun a => decide (key a = c))
      = l.filter (fun a => decide (key a = c)) := by
  induction l with
  | nil => rfl
  | cons x xs ih =>
    show (insertDescBy key x (sortDescBy key xs)).filter _ = _
    rw [filter_insertDescBy]
    by_cases hx : key x = c <;> simp [List.filter_cons, hx, ih]

lemma counterItems_nodup (ws : List Text) :
    ((counterItems ws).map Prod.fst).Nodup :=
  (counter_foldl ws []).2.2 (by simp)

lemma counterItems_cnt (ws : List Text) (v : Text) :
    cnt (counterItems ws) v = ws.count v := by
  have h := (counter_foldl ws []).2.1 v
  simpa [cnt] using h

/-- C4: the trend extractor tokenizes by whitespace only, excludes the
tokens beginning with "http", counts occurrences across the whole subset
(each reported pair is a counter item whose count is the token's number of
occurrences, the counter being keyed in order of first appearance), and
returns at most 10 items, descending by count, ties kept in counter order
(for each count value the reported items are a sublist of the counter
items of that count); every counter item left out has a count no larger
than any reported one. On the texts "a b" and "b a", token "a" is returned
before token "b". -/
theorem trendingWords_spec (texts : List Text) :
    (∀ p ∈ trendingWords texts, p ∈ counterItems (wordsOf texts))
    ∧ (∀ p ∈ counterItems (wordsOf texts), p.2 = (wordsOf texts).count p.1)
    ∧ (counterItems (wordsOf texts)).map Prod.fst = dedupKeepFirst (wordsOf texts)
    ∧ (∀ w ∈ wordsOf texts, httpMarker.isPrefixOf w = false
        ∧ ∃ t ∈ texts, w ∈ pySplit t)
    ∧ (trendingWords texts).Pairwise (fun a b => b.2 ≤ a.2)
    ∧ (∀ c : Nat, ((trendingWords texts).filter (fun p => decide (p.2 = c))).Sublist
        ((counterItems (wordsOf texts)).filter (fun p => decide (p.2 = c))))
    ∧ (trendingWords texts).length ≤ 10
    ∧ (∀ p ∈ counterItems (wordsOf texts), p ∉ trendingWords texts →
        ∀ q ∈ trendingWords texts, p.2 ≤ q.2)
    ∧ trendingWords [['a', ' ', 'b'], ['b', ' ', 'a']] = [(['a'], 2), (['b'], 2)] := by
  have htw : trendingWords texts
      = (sortDescBy Prod.snd (counterItems (wordsOf texts))).take 10 := rfl
  refine ⟨?_, ?_, ?_, ?_, ?_, ?_, ?_, ?_, by decide⟩
  · intro p hp
    rw [htw] at hp
    exact (sortDescBy_perm Prod.snd _).mem_iff.mp (List.mem_of_mem_take hp)
  · intro p hp
    have := (mem_iff_cnt _ (counterItems_nodup (wordsOf texts)) p).mp hp
    rw [this.2, counterItems_cnt]
  · have h := (counter_foldl (wordsOf texts) []).1
    simpa [counterItems, dedupKeepFirst] using h
  · intro w hw
    unfold wordsOf at hw
    obtain ⟨t, ht, hwt⟩ := List.mem_flatMap.mp hw
    have := List.mem_filter.mp hwt
    refine ⟨by simpa using this.2, t, ht, this.1⟩
  · rw [htw]
    exact List.Pairwise.sublist (List.take_sublist _ _) (sortDescBy_sorted Prod.snd _)
  · intro c
    rw [htw]
    have h1 : (((sortDescBy Prod.snd (counterItems (wordsOf texts))).take 10).filter
        (fun p => decide (p.2 = c))).Sublist
        ((sortDescBy Prod.snd (counterItems (wordsOf texts))).filter
          (fun p => decide (p.2 = c))) :=
      List.Sublist.filter _ (List.take_sublist _ _)
    rw [sortDescBy_filter Prod.snd (counterItems (wordsOf texts)) c] at h1
    exact h1
  · rw [htw]
    exact List.length_take_le _ _
  · intro p hp hnot q hq
    rw [htw] at hnot hq
    have hps : p ∈ sortDescBy Prod.snd (counterItems (wordsOf texts)) :=
      (sortDescBy_perm Prod.snd _).mem_iff.mpr hp
    have hsplit := List.take_append_drop 10
      (sortDescBy Prod.snd (counterItems (wordsOf texts)))
    have hmem : p ∈ (sortDescBy Prod.snd (counterItems (wordsOf texts))).take 10
        ++ (sortDescBy Prod.snd (counterItems (wordsOf texts))).drop 10 := by
      rw [hsplit]
      exact hps
    rcases List.mem_append.mp hmem with h | h
    · exact absurd h hnot
    · have hpw : List.Pairwise (fun a b => Prod.snd b ≤ Prod.snd a)
          ((sortDescBy Prod.snd (counterItems (wordsOf texts))).take 10
            ++ (sortDescBy Prod.snd (counterItems (wordsOf texts))).drop 10) := by
        rw [hsplit]
        exact sortDescBy_sorted Prod.snd _
      exact (List.pairwise_append.mp hpw).2.2 q hq p h

/-!
## Ranking

Lines 150 and 153:
`df[df['Sentiment']=="Positive"].sort_values('Polarity', ascending=False).head(5)`
and `df[df['Sentiment']=="Negative"].sort_values('Polarity').head(5)`.

`sort_values` on one column calls pandas `nargsort` with the default
`kind='quicksort'`, which is numpy `argsort(kind='quicksort')`: the
indirect introsort `npy_aquicksort` — median-of-three quicksort on the
index array, switching to an indirect insertion sort on partitions of at
most 16 elements (`SMALL_QUICKSORT` = 15 compares `pr - pl`), with a
depth-limited switch to heapsort. For `ascending=False`, `nargsort`
reverses the values and the position array, argsorts ascending, and
reverses the resulting indexer. The embedding below follows
`npy_aquicksort` step for step on NaN-free keys (the comparison
`DOUBLE_LT` is plain `<` then); the fuel arguments only bound the loops,
with enough fuel that they never run out on inputs of the given length.
The depth-limit fallback (numpy: an indirect heapsort) is modelled by a
stand-in insertion sort: it is unreachable on the inputs evaluated here,
which partition exactly once while `2 * log2 n + 1` partitions are
allowed.
-/

/-- `DOUBLE_LT` on NaN-free keys: plain strict comparison. -/
def qsLT (a b : ℚ) : Bool := decide (a < b)

/-- `v[tosort[i]]`: the key at slot `i` of the index array (0 when out of
range, which valid runs never hit). -/
def keyAt (v : List ℚ) (t : List Nat) (i : Nat) : ℚ :=
  v.getD (t.getD i 0) 0

/-- `INTP_SWAP(*a, *b)` on the index array. -/
def lswap (t : List Nat) (i j : Nat) : List Nat :=
  let a := t.getD i 0
  let b := t.getD j 0
  (t.set i b).set j a

/-- `do ++pi; while (v[*pi] < vp)`: returns the final `pi`. -/
def scanUp (v : List ℚ) (t : List Nat) (vp : ℚ) : Nat → Nat → Nat
  | 0, i => i + 1
  | fuel + 1, i =>
    if qsLT (keyAt v t (i + 1)) vp then scanUp v t vp fuel (i + 1) else i + 1

/-- `do --pj; while (vp < v[*pj])`: returns the final `pj`. -/
def scanDown (v : List ℚ) (t : List Nat) (vp : ℚ) : Nat → Nat → Nat
  | 0, j => j - 1
  | fuel + 1, j =>
    if qsLT vp (keyAt v t (j - 1)) then scanDown v t vp fuel (j - 1) else j - 1

/-- The partition exchange loop: scan up, scan down, stop when the
pointers cross, otherwise swap and continue. Returns the final `pi` and
the index array. -/
def partLoop (v : List ℚ) (vp : ℚ) : Nat → Nat → Nat → List Nat → Nat × List Nat
  | 0, i, _, t => (i, t)
  | fuel + 1, i, j, t =>
    let i2 := scanUp v t vp (t.length + 2) i
    let j2 := scanDown v t vp (t.length + 2) j
    if i2 ≥ j2 then (i2, t)
    else partLoop v vp fuel i2 j2 (lswap t i2 j2)

/-- The shifting loop of the indirect insertion sort:
`while (pj > pl && vp < v[*pk]) { *pj-- = *pk--; }`. Returns the final
`pj` and the index array. -/
def insInner (v : List ℚ) (vp : ℚ) (pl : Nat) : Nat → Nat → List Nat → Nat × List Nat
  | 0, pj, t => (pj, t)
  | fuel + 1, pj, t =>
    if decide (pl < pj) && qsLT vp (keyAt v t (pj - 1)) then
      insInner v vp pl fuel (pj - 1) (t.set pj (t.getD (pj - 1) 0))
    else (pj, t)

/-- The outer loop of the indirect insertion sort over `pi = pl+1 .. pr`. -/
def insOuter (v : List ℚ) (pl pr : Nat) : Nat → Nat → List Nat → List Nat
  | 0, _, t => t
  | fuel + 1, pi, t =>
    if pi > pr then t
    else
      let vi := t.getD pi 0
      let vp := v.getD vi 0
      let s := insInner v vp pl (pi + 1) pi t
      insOuter v pl pr fuel (pi + 1) (s.2.set s.1 vi)

/-- Indirect insertion sort of the range `[pl, pr]` of the index array. -/
def insSortRange (v : List ℚ) (pl pr : Nat) (t : List Nat) : List Nat :=
  insOuter v pl pr (pr + 2 - pl) (pl + 1) t

/-- The main loop of `npy_aquicksort`: `dl` counts the partitions still
allowed before the depth-limit fallback, `stk` is the pushed ranges. -/
def qsMain (v : List ℚ) : Nat → Nat → Nat → Nat → List (Nat × Nat) → List Nat → List Nat
  | 0, _, _, _, _, t => t
  | fuel + 1, dl, pl, pr, stk, t =>
    if pr - pl > 15 then
      match dl with
      | 0 =>
        -- numpy switches to an indirect heapsort here; unreachable on the
        -- inputs this development evaluates (stand-in: insertion sort).
        let t2 := insSortRange v pl pr t
        match stk with
        | [] => t2
        | (pl2, pr2) :: rest => qsMain v fuel 0 pl2 pr2 rest t2
      | dl2 + 1 =>
        let pm := pl + (pr - pl) / 2
        let t1 := if qsLT (keyAt v t pm) (keyAt v t pl) then lswap t pm pl else t
        let t2 := if qsLT (keyAt v t1 pr) (keyAt v t1 pm) then lswap t1 pr pm else t1
        let t3 := if qsLT (keyAt v t2 pm) (keyAt v t2 pl) then lswap t2 pm pl else t2
        let vp := keyAt v t3 pm
        let t4 := lswap t3 pm (pr - 1)
        let s := partLoop v vp (t4.length + 2) pl (pr - 1) t4
        let pi := s.1
        let t5 := lswap s.2 pi (pr - 1)
        if pi - pl < pr - pi then
          qsMain v fuel dl2 pl (pi - 1) ((pi + 1, pr) :: stk) t5
        else
          qsMain v fuel dl2 (pi + 1) pr ((pl, pi - 1) :: stk) t5
    else
      let t2 := insSortRange v pl pr t
      match stk with
      | [] => t2
      | (pl2, pr2) :: rest => qsMain v fuel dl pl2 pr2 rest t2

/-- `np.argsort(v, kind='quicksort')` on NaN-free keys: sort the index
array `[0, .., n-1]` indirectly; `depth_limit = npy_get_msb(num) * 2`
allows `2 * log2 n + 1` partitions before the fallback. -/
def npArgsort (v : List ℚ) : List Nat :=
  let n := v.length
  qsMain v (2 * n + 4) (2 * Nat.log2 n + 1) 0 (n - 1) [] (List.range n)

/-- pandas `nargsort` with `ascending=True` on NaN-free keys. -/
def nargsortAsc (keys : List ℚ) : List Nat := npArgsort keys

/-- pandas `nargsort` with `ascending=False` on NaN-free keys: reverse the
values and the position array, argsort ascending, reverse the indexer
(`indexer = non_nan_idx[non_nans.argsort(kind=kind)][::-1]` with both
arrays reversed first). -/
def nargsortDesc (keys : List ℚ) : List Nat :=
  let n := keys.length
  ((npArgsort keys.reverse).map (fun i => n - 1 - i)).reverse

/-- Reorder the rows of a frame by an indexer (`df.iloc[indexer]`; every
indexer produced above is a permutation of the row positions). -/
def applyIdx (df : List CTweet) (idx : List Nat) : List CTweet :=
  idx.filterMap (fun i => df[i]?)

/-- Line 150: `df[df['Sentiment']=="Positive"]
.sort_values('Polarity', ascending=False).head(k)` (the source passes 5). -/
def topPositive (df : List CTweet) (k : Nat) : List CTweet :=
  let sub := df.filter (fun r => decide (r.sentiment = .Positive))
  (applyIdx sub (nargsortDesc (sub.map (fun r => r.polarity)))).take k

/-- Line 153: `df[df['Sentiment']=="Negative"]
.sort_values('Polarity').head(k)` (the source passes 5). -/
def topNegative (df : List CTweet) (k : Nat) : List CTweet :=
  let sub := df.filter (fun r => decide (r.sentiment = .Negative))
  (applyIdx sub (nargsortAsc (sub.map (fun r => r.polarity)))).take k

/-- Spec-side ranker, from the spec's words: sort by polarity descending
with ties broken by original order (a stable descending sort), first `k`. -/
def specTopPositive (df : List CTweet) (k : Nat) : List CTweet :=
  (sortDescBy (fun r => r.polarity)
    (df.filter (fun r => decide (r.sentiment = .Positive)))).take k

/-- Seventeen positive records with equal polarity 1 (threshold 0), in
corpus order 0..16: one more record than numpy's insertion-sort cutoff,
so a quicksort partition runs. -/
def tied17 : List CTweet :=
  (List.range 17).map (fun i => analyze (fun _ => 1) 0 ⟨(i : Int), []⟩)

set_option maxRecDepth 100000 in
/-- C3: on a classified subset of 17 positive records with equal polarity,
in corpus order 0..16, the ranker returns the records at subset positions
0, 9, 15, 14, 13 — not the first five records, as ties broken by original
corpus order would require (the spec-side stable ranker returns 0..4):
`sort_values` with the default `kind='quicksort'` reorders equal keys once
a partition runs (more than 16 elements). The ascending ranker diverges on
the same keys too. -/
theorem topPositive_quicksort_reorders_ties :
    ((topPositive tied17 5).map (fun r => r.created_at) = [0, 9, 15, 14, 13])
    ∧ ((specTopPositive tied17 5).map (fun r => r.created_at) = [0, 1, 2, 3, 4])
    ∧ topPositive tied17 5 ≠ specTopPositive tied17 5
    ∧ ((topNegative (tied17.map (fun r => { r with sentiment := .Negative })) 5).map
        (fun r => r.created_at) = [0, 14, 13, 12, 11]) := by
  refine ⟨by decide, by decide, by decide, by decide⟩
